import Mathlib

/-!
Verification of the elliptic-curve / finite-field core of the repository.

The development shallowly embeds the Rust sources:
* `field_element.rs` — the `FieldElement` type over ℤ/pℤ with `u32` machine
  arithmetic.  Machine integers are modelled as `Nat`/`Int`; arithmetic
  follows the debug-profile semantics of the source language, where an
  overflowing operation aborts the program.  An aborting computation is
  modelled as `Option.none`.
* `coordinate.rs` / `point.rs` — the generic `Coordinate<T>` and `Point<T>`
  types, parameterised by a record of numeric operations mirroring the
  `GraphPoint` trait bound, together with the group-law addition and the
  double-and-add scalar multiplication.
-/

set_option maxRecDepth 40000

namespace Spec2Proof

/-! ## Machine integer helpers (u32 / i32) -/

/-- Number of values of a `u32`. -/
def u32Size : Nat := 4294967296

/-- Smallest `i32` value. -/
def i32Min : Int := -2147483648

/-- Largest `i32` value. -/
def i32Max : Int := 2147483647

/-- Checked `u32` addition: aborts (`none`) on overflow. -/
def checkedAddU32 (a b : Nat) : Option Nat :=
  if a + b < u32Size then some (a + b) else none

/-- Checked `u32` multiplication: aborts (`none`) on overflow. -/
def checkedMulU32 (a b : Nat) : Option Nat :=
  if a * b < u32Size then some (a * b) else none

/-- Checked `u32` subtraction: aborts (`none`) on underflow. -/
def checkedSubU32 (a b : Nat) : Option Nat :=
  if b ≤ a then some (a - b) else none

/-- The `u32` remainder operator `%` (also `u32::rem_euclid`); aborts on a
zero divisor. -/
def remU32 (a b : Nat) : Option Nat :=
  if b = 0 then none else some (a % b)

/-- The cast `x as i32` applied to a `u32` value: wraps around `2^32`. -/
def u32AsI32 (n : Nat) : Int :=
  if n < 2147483648 then (n : Int) else (n : Int) - u32Size

/-- Checked `i32` subtraction: aborts when the result leaves the `i32` range. -/
def checkedSubI32 (a b : Int) : Option Int :=
  if i32Min ≤ a - b ∧ a - b ≤ i32Max then some (a - b) else none

/-- The `i32` multiplication by `-1` (`x * -1`): aborts on overflow, which
happens exactly at `i32::MIN`. -/
def checkedNegI32 (a : Int) : Option Int :=
  if a = i32Min then none else some (-a)

/-- The `i32::rem_euclid` function: aborts on a zero divisor and on the
overflowing pair `(i32::MIN, -1)`; otherwise it agrees with `Int.emod`,
returning a value in `[0, |b|)`. -/
def remEuclidI32 (a b : Int) : Option Int :=
  if b = 0 ∨ (a = i32Min ∧ b = -1) then none else some (a % b)

/-! ## FieldElement (`field_element.rs`) -/

/-- The `FieldElement` struct: a number together with the modulus of its
field.  Both fields are `u32` in the source. -/
structure FieldElement where
  number : Nat
  prime : Nat
deriving DecidableEq

/-- The constructor `FieldElement::new`: rejects `number >= prime` with an
out-of-range error message.  Building that message evaluates `prime - 1` on
a `u32`, which aborts when `prime = 0`. -/
def FieldElement.new (number prime : Nat) : Option (Except String FieldElement) :=
  if prime ≤ number then
    (checkedSubU32 prime 1).map fun m =>
      Except.error ("Number " ++ toString number ++ " not in field range 0 to " ++ toString m)
  else some (Except.ok ⟨number, prime⟩)

/-- The loop body of `FieldElement::positive_pow`: starting from `acc`,
repeat `acc = (acc * number).rem_euclid(prime)` the given number of times. -/
def FieldElement.positivePowLoop (x : FieldElement) (acc : Nat) : Nat → Option Nat
  | 0 => some acc
  | k + 1 => do
    let m ← checkedMulU32 acc x.number
    let r ← remU32 m x.prime
    x.positivePowLoop r k

/-- The method `FieldElement::positive_pow`: repeated modular multiplication,
`power` times, starting from `1`.  A nonpositive `power` runs the loop zero
times. -/
def FieldElement.positive_pow (x : FieldElement) (power : Int) : Option FieldElement :=
  (x.positivePowLoop 1 power.toNat).map fun n => ⟨n, x.prime⟩

/-- The method `FieldElement::negative_pow`: reduce the exponent with
`power.rem_euclid(self.prime as i32 - 1)` and defer to `positive_pow`. -/
def FieldElement.negative_pow (x : FieldElement) (power : Int) : Option FieldElement := do
  let pm1 ← checkedSubI32 (u32AsI32 x.prime) 1
  let equivalentPower ← remEuclidI32 power pm1
  x.positive_pow equivalentPower

/-- The `Pow` implementation for `FieldElement`: dispatch on
`exp.is_positive()`. -/
def FieldElement.pow (x : FieldElement) (exp : Int) : Option FieldElement :=
  if 0 < exp then x.positive_pow exp else x.negative_pow exp

/-- The method `FieldElement::inverse`: `self.pow(self.prime as i32 - 2)`. -/
def FieldElement.inverse (x : FieldElement) : Option FieldElement := do
  let e ← checkedSubI32 (u32AsI32 x.prime) 2
  x.pow e

/-- The `Add` implementation for `FieldElement`: aborts on a prime mismatch,
then computes `(a + b) % prime` on `u32` values. -/
def FieldElement.add (x y : FieldElement) : Option FieldElement :=
  if x.prime ≠ y.prime then none
  else do
    let s ← checkedAddU32 x.number y.number
    let n ← remU32 s x.prime
    pure ⟨n, x.prime⟩

/-- The `Mul` implementation for `FieldElement`: aborts on a prime mismatch,
then computes `(a * b) % prime` on `u32` values. -/
def FieldElement.mul (x y : FieldElement) : Option FieldElement :=
  if x.prime ≠ y.prime then none
  else do
    let m ← checkedMulU32 x.number y.number
    let n ← remU32 m x.prime
    pure ⟨n, x.prime⟩

/-- The `Neg` implementation for `FieldElement`:
`(number as i32 * -1).rem_euclid(prime as i32)`, cast back to `u32`. -/
def FieldElement.neg (x : FieldElement) : Option FieldElement := do
  let o ← checkedNegI32 (u32AsI32 x.number)
  let n ← remEuclidI32 o (u32AsI32 x.prime)
  pure ⟨n.toNat, x.prime⟩

/-- The `Sub` implementation for `FieldElement`: `self + (-other)`. -/
def FieldElement.sub (x y : FieldElement) : Option FieldElement := do
  let ny ← y.neg
  x.add ny

/-- The `Div` implementation for `FieldElement`: `self * other.inverse()`. -/
def FieldElement.div (x y : FieldElement) : Option FieldElement := do
  let iy ← y.inverse
  x.mul iy

/-- The `IsZero` implementation for `FieldElement`: `number == 0`. -/
def FieldElement.isZero (x : FieldElement) : Bool :=
  x.number == 0

/-! ## Generic coordinates and points (`coordinate.rs`, `point.rs`)

The Rust code is generic over a type implementing the `GraphPoint` trait
bound: a copyable, comparable type with total operations
`+ × − ÷`, multiplication by an `i32` scalar, exponentiation by an `i32`,
and a zero test.  The record below mirrors this bound (the trait's unused
`Add<i32>` member is omitted: neither `coordinate.rs` consumers nor
`point.rs` ever invoke it on the underlying type through a code path used
here). -/

/-- The operations required of a coordinate's underlying numeric type,
mirroring the `GraphPoint` trait bound. -/
structure GraphPoint (α : Type) where
  add : α → α → α
  mul : α → α → α
  sub : α → α → α
  div : α → α → α
  mulInt : α → Int → α
  pow : α → Int → α
  isZero : α → Bool

/-- The `Coordinate<G>` enum: a finite value or the point at infinity. -/
inductive Coordinate (α : Type) where
  | value (v : α)
  | infinity
deriving DecidableEq

/-- The method `Coordinate::is_infinity`. -/
def Coordinate.isInfinity : Coordinate α → Bool
  | .infinity => true
  | .value _ => false

variable {α : Type} [DecidableEq α]

/-- The `Add` implementation for `Coordinate`: infinity acts as an identity,
and two infinities give infinity. -/
def cAdd (G : GraphPoint α) : Coordinate α → Coordinate α → Coordinate α
  | .value x, .value y => .value (G.add x y)
  | .value x, .infinity => .value x
  | .infinity, .value y => .value y
  | .infinity, .infinity => .infinity

/-- The `Sub` implementation for `Coordinate`: defined on two finite values,
any infinity operand yields infinity. -/
def cSub (G : GraphPoint α) : Coordinate α → Coordinate α → Coordinate α
  | .value x, .value y => .value (G.sub x y)
  | _, _ => .infinity

/-- The `Mul` implementation for `Coordinate`: defined on two finite values,
any infinity operand yields infinity. -/
def cMul (G : GraphPoint α) : Coordinate α → Coordinate α → Coordinate α
  | .value x, .value y => .value (G.mul x y)
  | _, _ => .infinity

/-- The `Div` implementation for `Coordinate`: defined on two finite values,
any infinity operand yields infinity. -/
def cDiv (G : GraphPoint α) : Coordinate α → Coordinate α → Coordinate α
  | .value x, .value y => .value (G.div x y)
  | _, _ => .infinity

/-- The `Mul<i32>` implementation for `Coordinate`. -/
def cMulInt (G : GraphPoint α) : Coordinate α → Int → Coordinate α
  | .value x, k => .value (G.mulInt x k)
  | .infinity, _ => .infinity

/-- The `Pow` implementation for `Coordinate`: infinity stays infinity,
otherwise delegate to the underlying type. -/
def cPow (G : GraphPoint α) : Coordinate α → Int → Coordinate α
  | .value x, e => .value (G.pow x e)
  | .infinity, _ => .infinity

/-- The method `Coordinate::is_zero`: a finite value delegates to the
underlying zero test; infinity is never zero. -/
def cIsZero (G : GraphPoint α) : Coordinate α → Bool
  | .value x => G.isZero x
  | .infinity => false

/-- The `Point<G>` struct: coordinates `x`, `y` and curve parameters
`a`, `b`, all of them `Coordinate<G>`. -/
structure Point (α : Type) where
  x : Coordinate α
  y : Coordinate α
  a : Coordinate α
  b : Coordinate α
deriving DecidableEq

/-- The constructor `Point::new`: unless `x` and `y` are both infinity,
require `y.pow(2) == x.pow(3) + x*a + b` under the lifted coordinate
arithmetic; otherwise report that the point is not on the curve.  (The
source formats the offending coordinates into the message; the message text
plays no role here.) -/
def pointNew (G : GraphPoint α) (x y a b : Coordinate α) : Except String (Point α) :=
  if (x.isInfinity && y.isInfinity) = false ∧
      cPow G y 2 ≠ cAdd G (cAdd G (cPow G x 3) (cMul G x a)) b then
    .error "is not on the curve"
  else
    .ok ⟨x, y, a, b⟩

/-- The method `Point::add_point` (the group-law cases after the identity
checks).  The source uses early returns; here the vertical-pair case and the
zero-slope doubling case appear as the first two branches, followed by the
slope computation shared by the tangent and secant cases. -/
def addPoint (G : GraphPoint α) (p q : Point α) : Point α :=
  if p.x = q.x ∧ p.y ≠ q.y then ⟨.infinity, .infinity, p.a, p.b⟩
  else if p = q ∧ cIsZero G p.y then ⟨.infinity, .infinity, p.a, p.b⟩
  else
    let slope :=
      if p = q then
        cDiv G (cAdd G (cMulInt G (cPow G p.x 2) 3) p.a) (cMulInt G p.y 2)
      else
        cDiv G (cSub G q.y p.y) (cSub G q.x p.x)
    let xRes := cSub G (cSub G (cPow G slope 2) p.x) q.x
    let yRes := cSub G (cMul G slope (cSub G p.x xRes)) p.y
    ⟨xRes, yRes, p.a, p.b⟩

/-- The `Add` implementation for `Point`: a curve mismatch is an error;
an infinite `x` on either side makes that side the identity; otherwise
defer to `add_point`. -/
def pointAdd (G : GraphPoint α) (p q : Point α) : Except String (Point α) :=
  if p.a ≠ q.a ∨ p.b ≠ q.b then .error "are not on the same curve"
  else if p.x.isInfinity then .ok q
  else if q.x.isInfinity then .ok p
  else .ok (addPoint G p q)

/-- The loop of `binary_expansion`: while `coef > 0`, add `current` into
`result` when the low bit of `coef` is set, double `current`, and shift
`coef` right.  The two `unwrap` calls abort on an error, modelled as
`none`. -/
def binExpAux (G : GraphPoint α) (result current : Point α) (coef : Nat) :
    Option (Point α) :=
  if h : coef = 0 then some result
  else
    match (if coef % 2 = 1 then pointAdd G result current else .ok result) with
    | .error _ => none
    | .ok result' =>
      match pointAdd G current current with
      | .error _ => none
      | .ok current' => binExpAux G result' current' (coef / 2)
termination_by coef
decreasing_by exact Nat.div_lt_self (Nat.pos_of_ne_zero h) (by decide)

/-- The function `binary_expansion`: double-and-add scalar multiplication,
starting the accumulator at the point at infinity on the input's curve
(whose construction is itself unwrapped). -/
def binary_expansion (G : GraphPoint α) (point : Point α) (coefficient : Nat) :
    Option (Point α) :=
  match pointNew G .infinity .infinity point.a point.b with
  | .error _ => none
  | .ok result => binExpAux G result point coefficient

/-- The `Mul<Point<T>> for u32` implementation: `n * point` is
`binary_expansion(point, n)`. -/
def scalarMul (G : GraphPoint α) (n : Nat) (point : Point α) : Option (Point α) :=
  binary_expansion G point n

/-- A structurally recursive evaluator for the `binary_expansion` loop,
used to compute concrete instances: it runs the same body as `binExpAux`
but measures the recursion by an explicit bound.  `binExpAux_eq_fuel` shows
it agrees with `binExpAux` whenever the bound dominates the coefficient. -/
def binExpAuxFuel (G : GraphPoint α) : Nat → Point α → Point α → Nat → Option (Point α)
  | _, result, _, 0 => some result
  | 0, result, _, _ + 1 => some result
  | fuel + 1, result, current, coef =>
    match (if coef % 2 = 1 then pointAdd G result current else .ok result) with
    | .error _ => none
    | .ok result' =>
      match pointAdd G current current with
      | .error _ => none
      | .ok current' => binExpAuxFuel G fuel result' current' (coef / 2)

/-! ## The finite-field instantiation of the coordinate operations

`Point<FieldElement>` instantiates the generic point logic with field
elements that all carry one fixed modulus `p`.  The operations below are the
`FieldElement` methods specialised to that shared modulus, with the element
represented by its `number` field.  For the moduli used by the point-level
claims (7 and 223) every intermediate value fits comfortably in `u32`
(sums are below `2p`, products below `p²`, casts to `i32` are exact), so the
machine arithmetic of `field_element.rs` coincides with the exact modular
arithmetic written here; the `FieldElement.*` definitions above retain the
overflow behaviour for the claims that range over all primes. -/

/-- Specialised `FieldElement` addition: `(a + b) % p`. -/
def feAdd (p a b : Nat) : Nat := (a + b) % p

/-- Specialised `FieldElement` multiplication: `(a * b) % p`. -/
def feMul (p a b : Nat) : Nat := (a * b) % p

/-- Specialised `FieldElement` negation: `(-b).rem_euclid(p)`. -/
def feNeg (p b : Nat) : Nat := ((-(b : Int)) % (p : Int)).toNat

/-- Specialised `FieldElement` subtraction: `a + (-b)`. -/
def feSub (p a b : Nat) : Nat := feAdd p a (feNeg p b)

/-- Specialised `FieldElement::positive_pow` loop: `power` modular
multiplications starting from `1`. -/
def fePowNat (p a : Nat) : Nat → Nat
  | 0 => 1
  | k + 1 => fePowNat p a k * a % p

/-- Specialised `FieldElement` `pow`: positive exponents run the
multiplication loop directly, other exponents are first reduced with
`rem_euclid(p - 1)`. -/
def fePow (p a : Nat) (e : Int) : Nat :=
  if 0 < e then fePowNat p a e.toNat else fePowNat p a ((e % ((p : Int) - 1)).toNat)

/-- Specialised `FieldElement::inverse`: `pow(p - 2)`. -/
def feInverse (p b : Nat) : Nat := fePow p b ((p : Int) - 2)

/-- Specialised `FieldElement` division: `a * b.inverse()`. -/
def feDiv (p a b : Nat) : Nat := feMul p a (feInverse p b)

/-- Specialised `FieldElement` `Mul<i32>`: `(a * k).rem_euclid(p)` on `i32`
values. -/
def feMulInt (p a : Nat) (k : Int) : Nat := (((a : Int) * k) % (p : Int)).toNat

/-- The `GraphPoint` operation record of `FieldElement` at modulus `p`. -/
def feGP (p : Nat) : GraphPoint Nat :=
  ⟨feAdd p, feMul p, feSub p, feDiv p, feMulInt p, fePow p, fun a => a == 0⟩

/-- The constructor `Point::from_finite_field`: build the four field
elements at the given modulus (each `FieldElement::new` rejecting a number
at or above the modulus, propagated by `?`) and delegate to `Point::new`. -/
def fromFiniteField (x y a b p : Nat) : Except String (Point Nat) :=
  if p ≤ x then .error "number not in field range"
  else if p ≤ y then .error "number not in field range"
  else if p ≤ a then .error "number not in field range"
  else if p ≤ b then .error "number not in field range"
  else pointNew (feGP p) (.value x) (.value y) (.value a) (.value b)

/-- The repeated-addition reference for scalar multiplication, from the
specification's words: starting from the point at Infinity on the input's
curve, add the point `n` times in sequence via the group-law addition (an
unwrap aborting on error, modelled as `none`). -/
def naiveAux (G : GraphPoint α) (acc point : Point α) : Nat → Option (Point α)
  | 0 => some acc
  | n + 1 =>
    match pointAdd G acc point with
    | .error _ => none
    | .ok acc' => naiveAux G acc' point n

/-- The repeated-addition reference: `P` added to the point at Infinity
`n` times in sequence. -/
def naiveMul (G : GraphPoint α) (point : Point α) (n : Nat) : Option (Point α) :=
  match pointNew G .infinity .infinity point.a point.b with
  | .error _ => none
  | .ok acc => naiveAux G acc point n

/-! ## Bridge to the Mathlib Weierstrass curve group

To relate the double-and-add loop with the repeated-addition reference for
every coefficient, the finite-field instantiation at the prime 223 (the
curve exercised by the source's tests and entry point) is mapped onto
Mathlib's group of nonsingular rational points of the Weierstrass curve
`y² = x³ + 7` over `ZMod 223`. -/

instance fact223 : Fact (Nat.Prime 223) := ⟨by norm_num⟩

/-- The Weierstrass curve `y² = x³ + 7` over `ZMod 223`. -/
def W223 : WeierstrassCurve.Affine (ZMod 223) :=
  { a₁ := 0, a₂ := 0, a₃ := 0, a₄ := 0, a₆ := 7 }

/-- A point of the embedded code is curve-valid on the test curve
`y² = x³ + 7` over ℤ/223ℤ when its parameters are `a = 0`, `b = 7` and its
coordinates are either both at infinity or both finite field elements
satisfying the curve equation. -/
def Valid223 (P : Point Nat) : Prop :=
  P.a = .value 0 ∧ P.b = .value 7 ∧
  ((P.x = .infinity ∧ P.y = .infinity) ∨
    (∃ x y : Nat, P.x = .value x ∧ P.y = .value y ∧ x < 223 ∧ y < 223 ∧
      y * y % 223 = (x * x * x + 7) % 223))

/-- Correspondence between a point of the embedded code and a nonsingular
rational point of the Mathlib curve: the identity point maps to zero and a
finite point maps to the `some` point with the cast coordinates. -/
def Corr (P : Point Nat) (Q : W223.Point) : Prop :=
  P.a = .value 0 ∧ P.b = .value 7 ∧
  ((P.x = .infinity ∧ P.y = .infinity ∧ Q = 0) ∨
    (∃ (x y : Nat) (h : W223.Nonsingular (x : ZMod 223) (y : ZMod 223)),
      P.x = .value x ∧ P.y = .value y ∧ x < 223 ∧ y < 223 ∧
      Q = WeierstrassCurve.Affine.Point.some h))

/-! ## The real-valued instantiation (`real_value.rs`)

`RealValue` wraps an IEEE-754 binary32 float.  Every finite binary32 value
is an exact rational; the model below represents it canonically as
`mant · 2 ^ expo` with `2^23 ≤ |mant| < 2^24` (or zero as `⟨0, 0⟩`), and
each arithmetic operation returns the representable value nearest to the
exact rational result, rounding ties to even — the IEEE semantics of the
source's `f32` operations.  The model covers the normal range, within
which every value of the computations considered here remains (no
overflow, underflow, infinity or NaN arises; in particular the divisions
reached here always have nonzero, finite operands, matching the guards of
the point-addition code).  Structural equality of canonical values is
exactly the source's `==` on the floats involved. -/

/-- Base-2 logarithm of a natural number, with the recursion measured by an
explicit bound (exact for `n < 2 ^ 128`, far beyond any value arising
here). -/
def log2Fuel : Nat → Nat → Nat
  | 0, _ => 0
  | fuel + 1, n => if n ≤ 1 then 0 else log2Fuel fuel (n / 2) + 1

/-- The floor of the base-2 logarithm of a positive natural. -/
def natLog2 (n : Nat) : Nat := log2Fuel 128 n

/-- Whether `n / d ≥ 2 ^ k` for positive naturals `n`, `d` and a signed
exponent `k`. -/
def ratGePow2 (n d : Nat) (k : Int) : Bool :=
  if 0 ≤ k then d * 2 ^ k.toNat ≤ n else d ≤ n * 2 ^ (-k).toNat

/-- The floor of the base-2 logarithm of the positive fraction `n / d`:
with `k := ⌊log2 n⌋ − ⌊log2 d⌋` the true value is `k` or `k − 1`, decided
by one comparison. -/
def floorLog2Q (n d : Nat) : Int :=
  let k : Int := (natLog2 n : Int) - (natLog2 d : Int)
  if ratGePow2 n d k then k else k - 1

/-- A finite binary32 value in canonical form: the value `mant · 2 ^ expo`
with `2^23 ≤ |mant| < 2^24`, or zero as `⟨0, 0⟩`. -/
structure F32 where
  mant : Int
  expo : Int
deriving DecidableEq

/-- Round the exact fraction `n / d` (with `d > 0`) to the nearest binary32
value, ties to even: find the exponent window, split the scaled mantissa
into quotient and remainder, and round by comparing twice the remainder
with the divisor. -/
def roundF (n : Int) (d : Nat) : F32 :=
  if n = 0 then ⟨0, 0⟩
  else
    let na : Nat := n.natAbs
    let e : Int := floorLog2Q na d - 23
    let sN : Nat := if 0 ≤ e then na else na * 2 ^ (-e).toNat
    let sD : Nat := if 0 ≤ e then d * 2 ^ e.toNat else d
    let fl : Nat := sN / sD
    let r : Nat := sN % sD
    let m : Nat :=
      if 2 * r < sD then fl
      else if sD < 2 * r then fl + 1
      else if fl % 2 = 0 then fl else fl + 1
    let sgn : Int := if 0 < n then 1 else -1
    if m = 16777216 then ⟨sgn * 8388608, e + 1⟩ else ⟨sgn * m, e⟩

/-- The numerator of the exact value of a binary32 number. -/
def F32.num (x : F32) : Int :=
  if 0 ≤ x.expo then x.mant * 2 ^ x.expo.toNat else x.mant

/-- The denominator of the exact value of a binary32 number. -/
def F32.den (x : F32) : Nat :=
  if 0 ≤ x.expo then 1 else 2 ^ (-x.expo).toNat

/-- Binary32 addition: the correctly rounded exact sum. -/
def f32Add (x y : F32) : F32 :=
  roundF (x.num * y.den + y.num * x.den) (x.den * y.den)

/-- Binary32 subtraction: the correctly rounded exact difference. -/
def f32Sub (x y : F32) : F32 :=
  roundF (x.num * y.den - y.num * x.den) (x.den * y.den)

/-- Binary32 multiplication: the correctly rounded exact product. -/
def f32Mul (x y : F32) : F32 :=
  roundF (x.num * y.num) (x.den * y.den)

/-- Binary32 division: the correctly rounded exact quotient (for a nonzero
divisor; a zero divisor, which the point code never passes here, yields the
zero placeholder rather than an infinity). -/
def f32Div (x y : F32) : F32 :=
  roundF (x.num * y.den * (if 0 < y.num then 1 else -1)) (x.den * y.num.natAbs)

/-- The cast of an integer to binary32 (exact for the small constants the
point code uses). -/
def f32OfInt (k : Int) : F32 := roundF k 1

/-- The `Mul<i32>` implementation of `RealValue`: `self.0 * other as f32`. -/
def f32MulInt (x : F32) (k : Int) : F32 := f32Mul x (f32OfInt k)

/-- The expansion of `f32::powi` for a non-negative exponent: repeated
multiplication, each step correctly rounded.  At the exponents 2 and 3 —
the only ones the point logic uses — this is the rounded square `x·x` and
cube `(x·x)·x`, on which every expansion order agrees (the source language
documents the rounding of `powi` as otherwise unspecified). -/
def f32PowNat (x : F32) : Nat → F32
  | 0 => ⟨8388608, -23⟩
  | 1 => x
  | k + 1 => f32Mul (f32PowNat x k) x

/-- The `Pow` implementation of `RealValue`: `powi`, with a negative
exponent inverting the positive power. -/
def f32PowInt (x : F32) (e : Int) : F32 :=
  if e < 0 then f32Div (f32OfInt 1) (f32PowNat x (-e).toNat) else f32PowNat x e.toNat

/-- The `GraphPoint` operation record of `RealValue`. -/
def realGP : GraphPoint F32 :=
  ⟨f32Add, f32Mul, f32Sub, f32Div, f32MulInt, f32PowInt, fun x => x.mant == 0⟩

/-- Modular exponentiation by repeated squaring, with the recursion
measured by an explicit bit bound: `powModFuel m fuel b e = b ^ e % m`
whenever `e < 2 ^ fuel`.  Used to verify the primality certificate of the
large prime in the C5 counterexample. -/
def powModFuel (m : Nat) : Nat → Nat → Nat → Nat
  | 0, _, _ => 1 % m
  | fuel + 1, b, e =>
    if e = 0 then 1 % m
    else
      let r := powModFuel m fuel ((b * b) % m) (e / 2)
      if e % 2 = 1 then r * b % m else r

/-! ## Theorems -/

/-! ## Supporting lemmas for the FieldElement claims -/

/-- Two naturals below the modulus are equal as soon as their images in
`ZMod p` agree. -/
theorem nat_eq_of_zmod_cast {p x y : Nat} (hx : x < p) (hy : y < p)
    (h : (x : ZMod p) = y) : x = y := by
  have hv := congrArg ZMod.val h
  rwa [ZMod.val_cast_of_lt hx, ZMod.val_cast_of_lt hy] at hv

/-- The `positive_pow` loop started at accumulator `0` stays at `0` when
the modulus is positive. -/
theorem positivePowLoop_zero_acc (p : Nat) (hp : 0 < p) :
    ∀ k, FieldElement.positivePowLoop ⟨0, p⟩ 0 k = some 0 := by
  intro k
  induction k with
  | zero => rfl
  | succ k ih =>
    rw [FieldElement.positivePowLoop]
    have h1 : checkedMulU32 0 (⟨0, p⟩ : FieldElement).number = some 0 := rfl
    have h2 : remU32 0 (⟨0, p⟩ : FieldElement).prime = some 0 := by
      show remU32 0 p = some 0
      simp [remU32, hp.ne']
    simp only [h1, h2, Option.bind_eq_bind, Option.some_bind]
    exact ih

/-- Raising the zero field element to any machine exponent whose value is
at least one yields the zero element. -/
theorem positive_pow_zero_base (p : Nat) (hp : 0 < p) (e : Int) (he : 1 ≤ e) :
    FieldElement.positive_pow ⟨0, p⟩ e = some ⟨0, p⟩ := by
  rw [FieldElement.positive_pow]
  obtain ⟨k, hk⟩ : ∃ k, e.toNat = k + 1 := ⟨e.toNat - 1, by omega⟩
  rw [hk, FieldElement.positivePowLoop]
  have h1 : checkedMulU32 1 (⟨0, p⟩ : FieldElement).number = some 0 := rfl
  have h2 : remU32 0 (⟨0, p⟩ : FieldElement).prime = some 0 := by
    show remU32 0 p = some 0
    simp [remU32, hp.ne']
  simp only [h1, h2, Option.bind_eq_bind, Option.some_bind]
  rw [positivePowLoop_zero_acc p hp k]
  rfl

/-! ## Claim theorems: FieldElement layer -/

/-- C3 counterexample: at the representable prime 65537 the `u32` product
`65536 * 65536` overflows, so multiplication aborts instead of returning
the exact result reduced modulo the prime (which would be the element 1). -/
theorem c3_counterexample_mul_overflow :
    FieldElement.mul ⟨65536, 65537⟩ ⟨65536, 65537⟩ = none ∧
    (65536 * 65536) % 65537 = 1 ∧ Nat.Prime 65537 :=
  ⟨by decide, by decide, by norm_num⟩

/-- C3 amended: for primes small enough that no intermediate `u32`
computation overflows (`p ≤ 2^16`), addition, subtraction and
multiplication of two elements of the same field return the exact integer
result reduced modulo `p`, preserving the range invariant. -/
theorem c3_field_ops_exact_mod_small_prime (p a b : Nat) (hp : Nat.Prime p)
    (hsize : p ≤ 65536) (ha : a < p) (hb : b < p) :
    (FieldElement.add ⟨a, p⟩ ⟨b, p⟩ = some ⟨(a + b) % p, p⟩ ∧ (a + b) % p < p) ∧
    (FieldElement.sub ⟨a, p⟩ ⟨b, p⟩ =
        some ⟨(((a : Int) - b) % p).toNat, p⟩ ∧ (((a : Int) - b) % p).toNat < p) ∧
    (FieldElement.mul ⟨a, p⟩ ⟨b, p⟩ = some ⟨a * b % p, p⟩ ∧ a * b % p < p) := by
  have hppos : 0 < p := hp.pos
  have hpne : p ≠ 0 := hppos.ne'
  have hadd : FieldElement.add ⟨a, p⟩ ⟨b, p⟩ = some ⟨(a + b) % p, p⟩ := by
    rw [FieldElement.add, if_neg (by simp)]
    have h1 : checkedAddU32 a b = some (a + b) := by
      rw [checkedAddU32, if_pos (by unfold u32Size; omega)]
    have h2 : remU32 (a + b) p = some ((a + b) % p) := by
      rw [remU32, if_neg hpne]
    simp [h1, h2]
  have hmul : FieldElement.mul ⟨a, p⟩ ⟨b, p⟩ = some ⟨a * b % p, p⟩ := by
    rw [FieldElement.mul, if_neg (by simp)]
    have h1 : checkedMulU32 a b = some (a * b) := by
      rw [checkedMulU32, if_pos ?_]
      have : a * b ≤ 65535 * 65535 := Nat.mul_le_mul (by omega) (by omega)
      unfold u32Size
      omega
    have h2 : remU32 (a * b) p = some (a * b % p) := by
      rw [remU32, if_neg hpne]
    simp [h1, h2]
  have hneg : FieldElement.neg ⟨b, p⟩ = some ⟨((-(b : Int)) % p).toNat, p⟩ := by
    rw [FieldElement.neg]
    have hb32 : u32AsI32 b = (b : Int) := by
      rw [u32AsI32, if_pos (by omega)]
    have hp32 : u32AsI32 p = (p : Int) := by
      rw [u32AsI32, if_pos (by omega)]
    have h1 : checkedNegI32 (u32AsI32 b) = some (-(b : Int)) := by
      rw [hb32, checkedNegI32, if_neg (by unfold i32Min; omega)]
    have h2 : remEuclidI32 (-(b : Int)) (u32AsI32 p) = some ((-(b : Int)) % p) := by
      rw [hp32, remEuclidI32, if_neg (by push_neg; constructor <;> omega)]
    simp [h1, h2]
  have hnegval : ((-(b : Int)) % p).toNat < p := by
    have h0 : 0 ≤ (-(b : Int)) % p := Int.emod_nonneg _ (by omega)
    have h1 : (-(b : Int)) % p < p := Int.emod_lt_of_pos _ (by omega)
    omega
  have hsub : FieldElement.sub ⟨a, p⟩ ⟨b, p⟩ =
      some ⟨(((a : Int) - b) % p).toNat, p⟩ := by
    rw [FieldElement.sub]
    simp only [hneg, Option.bind_eq_bind, Option.some_bind]
    have hadd2 : FieldElement.add ⟨a, p⟩ ⟨((-(b : Int)) % p).toNat, p⟩ =
        some ⟨(a + ((-(b : Int)) % p).toNat) % p, p⟩ := by
      rw [FieldElement.add, if_neg (by simp)]
      have h1 : checkedAddU32 a (((-(b : Int)) % p).toNat) =
          some (a + ((-(b : Int)) % p).toNat) := by
        rw [checkedAddU32, if_pos (by unfold u32Size; omega)]
      have h2 : remU32 (a + ((-(b : Int)) % p).toNat) p =
          some ((a + ((-(b : Int)) % p).toNat) % p) := by
        rw [remU32, if_neg hpne]
      simp [h1, h2]
    rw [hadd2]
    have hkey : (a + ((-(b : Int)) % p).toNat) % p = (((a : Int) - b) % p).toNat := by
      have hsubval : (((a : Int) - b) % p).toNat < p := by
        have h0 : 0 ≤ ((a : Int) - b) % p := Int.emod_nonneg _ (by omega)
        have h1 : ((a : Int) - b) % p < p := Int.emod_lt_of_pos _ (by omega)
        omega
      apply nat_eq_of_zmod_cast (Nat.mod_lt _ hppos) hsubval
      have hcast1 : (((a + ((-(b : Int)) % p).toNat) % p : Nat) : ZMod p) =
          ((a : ZMod p) + (((-(b : Int)) % p).toNat : ZMod p)) := by
        rw [ZMod.natCast_mod, Nat.cast_add]
      have hcast2 : ((((-(b : Int)) % p).toNat : Nat) : ZMod p) = (-(b : ZMod p)) := by
        have h0 : 0 ≤ (-(b : Int)) % p := Int.emod_nonneg _ (by omega)
        calc ((((-(b : Int)) % p).toNat : Nat) : ZMod p)
            = (((((-(b : Int)) % p).toNat : Nat) : Int) : ZMod p) :=
              (Int.cast_natCast _).symm
          _ = ((((-(b : Int)) % p) : Int) : ZMod p) := by
              rw [Int.toNat_of_nonneg h0]
          _ = (Int.cast (-(b : Int)) : ZMod p) := by rw [ZMod.intCast_mod]
          _ = -(b : ZMod p) := by rw [Int.cast_neg, Int.cast_natCast]
      have hcast3 : (((((a : Int) - b) % p).toNat : Nat) : ZMod p) =
          ((a : ZMod p) - (b : ZMod p)) := by
        have h0 : 0 ≤ ((a : Int) - b) % p := Int.emod_nonneg _ (by omega)
        calc (((((a : Int) - b) % p).toNat : Nat) : ZMod p)
            = ((((((a : Int) - b) % p).toNat : Nat) : Int) : ZMod p) :=
              (Int.cast_natCast _).symm
          _ = (((((a : Int) - b) % p) : Int) : ZMod p) := by
              rw [Int.toNat_of_nonneg h0]
          _ = (Int.cast ((a : Int) - b) : ZMod p) := by rw [ZMod.intCast_mod]
          _ = ((a : ZMod p) - (b : ZMod p)) := by
              rw [Int.cast_sub, Int.cast_natCast, Int.cast_natCast]
      rw [hcast1, hcast2, hcast3]
      ring
    rw [hkey]
  have hsubval : (((a : Int) - b) % p).toNat < p := by
    have h0 : 0 ≤ ((a : Int) - b) % p := Int.emod_nonneg _ (by omega)
    have h1 : ((a : Int) - b) % p < p := Int.emod_lt_of_pos _ (by omega)
    omega
  exact ⟨⟨hadd, Nat.mod_lt _ hppos⟩, ⟨hsub, hsubval⟩, hmul, Nat.mod_lt _ hppos⟩

/-- Witness for the amended C3 statement at `p = 13`, `a = 5`, `b = 9`. -/
theorem c3_field_ops_exact_mod_small_prime_witness :
    Nat.Prime 13 ∧ (13 : Nat) ≤ 65536 ∧ 5 < 13 ∧ 9 < 13 ∧
    ((FieldElement.add ⟨5, 13⟩ ⟨9, 13⟩ = some ⟨(5 + 9) % 13, 13⟩ ∧ (5 + 9) % 13 < 13) ∧
     (FieldElement.sub ⟨5, 13⟩ ⟨9, 13⟩ =
         some ⟨(((5 : Int) - 9) % 13).toNat, 13⟩ ∧ (((5 : Int) - 9) % 13).toNat < 13) ∧
     (FieldElement.mul ⟨5, 13⟩ ⟨9, 13⟩ = some ⟨5 * 9 % 13, 13⟩ ∧ 5 * 9 % 13 < 13)) :=
  ⟨by norm_num, by norm_num, by norm_num, by norm_num,
    c3_field_ops_exact_mod_small_prime 13 5 9 (by norm_num) (by norm_num)
      (by norm_num) (by norm_num)⟩

theorem powModFuel_eq (m : Nat) :
    ∀ (fuel b e : Nat), e < 2 ^ fuel → powModFuel m fuel b e = b ^ e % m := by
  intro fuel
  induction fuel with
  | zero =>
    intro b e he
    obtain rfl : e = 0 := by omega
    simp [powModFuel]
  | succ fuel ih =>
    intro b e he
    rw [powModFuel]
    by_cases h0 : e = 0
    · subst h0
      simp
    · rw [if_neg h0]
      have hpow : (2 : Nat) ^ (fuel + 1) = 2 * 2 ^ fuel := by rw [pow_succ]; ring
      have hrec := ih ((b * b) % m) (e / 2) (by omega)
      have hsq : ((b * b) % m) ^ (e / 2) % m = (b * b) ^ (e / 2) % m := by
        conv_rhs => rw [Nat.pow_mod]
      by_cases hbit : e % 2 = 1
      · rw [if_pos hbit, hrec, hsq, Nat.mod_mul_mod]
        congr 1
        have hbb : b * b = b ^ 2 := (sq b).symm
        rw [hbb, ← pow_mul, ← pow_succ]
        congr 1
        omega
      · rw [if_neg hbit, hrec, hsq]
        congr 1
        have hbb : b * b = b ^ 2 := (sq b).symm
        rw [hbb, ← pow_mul]
        congr 1
        omega

/-- The modulus 3221225473 = 3·2^30 + 1 of the C5 counterexample is prime,
by the Lucas primality test with the primitive root 5 (the power residues
are evaluated through `powModFuel`). -/
theorem prime_3221225473 : Nat.Prime 3221225473 := by
  have hbridge : ∀ e : Nat, e < 2 ^ 34 →
      ((powModFuel 3221225473 34 5 e : Nat) : ZMod 3221225473) =
        (5 : ZMod 3221225473) ^ e := by
    intro e he
    rw [powModFuel_eq 3221225473 34 5 e he, ZMod.natCast_mod, Nat.cast_pow]
    norm_num
  apply lucas_primality 3221225473 (5 : ZMod 3221225473)
  · have hval : powModFuel 3221225473 34 5 3221225472 = 1 := by decide
    have hb := hbridge 3221225472 (by norm_num)
    rw [hval] at hb
    rw [show (3221225473 - 1 : Nat) = 3221225472 from rfl, ← hb]
    norm_num
  · intro q hq hdvd
    have h230 : (3221225473 - 1 : Nat) = 2 ^ 30 * 3 := by norm_num
    rw [h230] at hdvd
    rcases (Nat.Prime.dvd_mul hq).mp hdvd with h | h
    · have hq2 : q = 2 :=
        (Nat.prime_dvd_prime_iff_eq hq Nat.prime_two).mp
          (Nat.Prime.dvd_of_dvd_pow hq h)
      subst hq2
      rw [show ((3221225473 - 1) / 2 : Nat) = 1610612736 from by norm_num]
      have hval : powModFuel 3221225473 34 5 1610612736 = 3221225472 := by decide
      have hb := hbridge 1610612736 (by norm_num)
      rw [hval] at hb
      rw [← hb]
      intro hc
      have heq : (3221225472 : Nat) = 1 := by
        apply nat_eq_of_zmod_cast (show (3221225472 : Nat) < 3221225473 by norm_num)
          (show (1 : Nat) < 3221225473 by norm_num)
        exact_mod_cast hc
      norm_num at heq
    · have hq3 : q = 3 :=
        (Nat.prime_dvd_prime_iff_eq hq (by norm_num)).mp h
      subst hq3
      rw [show ((3221225473 - 1) / 3 : Nat) = 1073741824 from by norm_num]
      have hval : powModFuel 3221225473 34 5 1073741824 = 1610563584 := by decide
      have hb := hbridge 1073741824 (by norm_num)
      rw [hval] at hb
      rw [← hb]
      intro hc
      have heq : (1610563584 : Nat) = 1 := by
        apply nat_eq_of_zmod_cast (show (1610563584 : Nat) < 3221225473 by norm_num)
          (show (1 : Nat) < 3221225473 by norm_num)
        exact_mod_cast hc
      norm_num at heq

/-- C5 counterexample: at the prime 3221225473 = 3·2^30 + 1, which exceeds
2^31, the source's cast `prime as i32` wraps to a negative value, so a
negative exponent is reduced modulo 2^32 + 1 − p = 2^30 rather than modulo
p − 1.  For the zero element and the exponent −2^30 the code computes an
equivalent power of 0 and returns the element 1, while the claimed
reduction modulo p − 1 gives the exponent 2^31 and the positive-exponent
path returns the element 0. -/
theorem c5_counterexample_wrapping_cast :
    Nat.Prime 3221225473 ∧ (0 : Nat) < 3221225473 ∧ (-1073741824 : Int) < 0 ∧
    FieldElement.pow ⟨0, 3221225473⟩ (-1073741824) = some ⟨1, 3221225473⟩ ∧
    (-1073741824 : Int) % ((3221225473 : Int) - 1) = 2147483648 ∧
    FieldElement.positive_pow ⟨0, 3221225473⟩
        ((-1073741824 : Int) % ((3221225473 : Int) - 1)) = some ⟨0, 3221225473⟩ ∧
    (⟨1, 3221225473⟩ : FieldElement) ≠ ⟨0, 3221225473⟩ := by
  refine ⟨prime_3221225473, by norm_num, by norm_num, by decide, by decide, ?_, by decide⟩
  rw [show (-1073741824 : Int) % ((3221225473 : Int) - 1) = 2147483648 from by decide]
  exact positive_pow_zero_base 3221225473 (by norm_num) 2147483648 (by norm_num)

/-- C5 amended: for primes representable in `i32` (p < 2^31), where the
source's cast `prime as i32` is exact, `pow` on a negative exponent reduces
it with `rem_euclid(p - 1)` and runs the positive-exponent
repeated-multiplication path on the reduced non-negative exponent; in
particular `FieldElement::new(7,13).pow(-3)` is the element 8 of ℤ/13ℤ.
(For larger primes the cast wraps and a different modulus is used — see
the C5 counterexample.) -/
theorem c5_negative_pow_reduces :
    (∀ (x p : Nat) (e : Int), x < p → Nat.Prime p → p < 2 ^ 31 → e < 0 →
      FieldElement.pow ⟨x, p⟩ e =
        FieldElement.positive_pow ⟨x, p⟩ (e % ((p : Int) - 1))) ∧
    FieldElement.pow ⟨7, 13⟩ (-3) = some ⟨8, 13⟩ := by
  refine ⟨?_, by decide⟩
  intro x p e hx hp hsize he
  have hp2 : 2 ≤ p := hp.two_le
  rw [FieldElement.pow, if_neg (by omega)]
  rw [FieldElement.negative_pow]
  have hp32 : u32AsI32 p = (p : Int) := by
    rw [u32AsI32, if_pos (by omega)]
  have h1 : checkedSubI32 (u32AsI32 (⟨x, p⟩ : FieldElement).prime) 1 =
      some ((p : Int) - 1) := by
    show checkedSubI32 (u32AsI32 p) 1 = _
    rw [hp32, checkedSubI32, if_pos (by unfold i32Min i32Max; omega)]
  have h2 : remEuclidI32 e ((p : Int) - 1) = some (e % ((p : Int) - 1)) := by
    rw [remEuclidI32, if_neg (by push_neg; constructor <;> omega)]
  simp [h1, h2]

/-- Witness for C5 at the concrete instance `x = 7`, `p = 13`, `e = -3`. -/
theorem c5_negative_pow_reduces_witness :
    (7 : Nat) < 13 ∧ Nat.Prime 13 ∧ (13 : Nat) < 2 ^ 31 ∧ (-3 : Int) < 0 ∧
    FieldElement.pow ⟨7, 13⟩ (-3) =
      FieldElement.positive_pow ⟨7, 13⟩ ((-3) % ((13 : Int) - 1)) :=
  ⟨by norm_num, by norm_num, by norm_num, by norm_num,
    c5_negative_pow_reduces.1 7 13 (-3) (by norm_num) (by norm_num)
      (by norm_num) (by norm_num)⟩

/-- C6: Fermat's little theorem instance — every nonzero element of ℤ/31ℤ
raised to the 30th power by `pow` is the multiplicative identity. -/
theorem c6_fermat_31 : ∀ n : Nat, n < 31 → 0 < n →
    FieldElement.pow ⟨n, 31⟩ 30 = some ⟨1, 31⟩ := by
  decide

/-- Witness for C6 at `n = 5`. -/
theorem c6_fermat_31_witness :
    (5 : Nat) < 31 ∧ (0 : Nat) < 5 ∧ FieldElement.pow ⟨5, 31⟩ 30 = some ⟨1, 31⟩ :=
  ⟨by norm_num, by norm_num, c6_fermat_31 5 (by norm_num) (by norm_num)⟩

/-- C9: with modulus 0 the constructor never reports the out-of-range
failure — building the error message computes `0 - 1` on a `u32`, which
aborts; for any modulus at least 1 the constructor is total. -/
theorem c9_new_prime_zero_aborts :
    (∀ n : Nat, FieldElement.new n 0 = none) ∧
    (∀ n p : Nat, 1 ≤ p → (FieldElement.new n p).isSome = true) := by
  constructor
  · intro n
    rw [FieldElement.new, if_pos (Nat.zero_le n)]
    rfl
  · intro n p hp
    rw [FieldElement.new]
    by_cases h : p ≤ n
    · rw [if_pos h]
      have : checkedSubU32 p 1 = some (p - 1) := by
        rw [checkedSubU32, if_pos hp]
      rw [this]
      rfl
    · rw [if_neg h]
      rfl

/-- Witness for C9: the abort at modulus 0 and totality at modulus 13. -/
theorem c9_new_prime_zero_aborts_witness :
    FieldElement.new 5 0 = none ∧ (1 : Nat) ≤ 13 ∧
    (FieldElement.new 5 13).isSome = true :=
  ⟨c9_new_prime_zero_aborts.1 5, by norm_num, c9_new_prime_zero_aborts.2 5 13 (by norm_num)⟩

/-- C10: for every representable prime `p > 2`, dividing any element by the
zero element silently returns the zero element — `inverse` computes
`0^(p-2) = 0`, so `a / 0 = a * 0 = 0` with no failure signalled. -/
theorem c10_div_by_zero_returns_zero (p a : Nat) (hp : Nat.Prime p)
    (h2 : 2 < p) (hsize : p < 2 ^ 32) (ha : a < p) :
    FieldElement.div ⟨a, p⟩ ⟨0, p⟩ = some ⟨0, p⟩ := by
  have hppos : 0 < p := hp.pos
  have hinv : FieldElement.inverse ⟨0, p⟩ = some ⟨0, p⟩ := by
    rw [FieldElement.inverse]
    by_cases hcase : p < 2 ^ 31
    · have hp32 : u32AsI32 p = (p : Int) := by
        rw [u32AsI32, if_pos (by omega)]
      have h1 : checkedSubI32 (u32AsI32 (⟨0, p⟩ : FieldElement).prime) 2 =
          some ((p : Int) - 2) := by
        show checkedSubI32 (u32AsI32 p) 2 = _
        rw [hp32, checkedSubI32, if_pos (by unfold i32Min i32Max; omega)]
      rw [h1]
      show FieldElement.pow ⟨0, p⟩ ((p : Int) - 2) = _
      rw [FieldElement.pow, if_pos (by omega)]
      exact positive_pow_zero_base p hppos _ (by omega)
    · have hodd : Odd p := hp.odd_of_ne_two (by omega)
      obtain ⟨k, hk⟩ := hodd
      have hne1 : p ≠ 2147483649 := by
        intro hcontra
        rw [hcontra] at hp
        exact absurd hp (by norm_num)
      have hplow : 2147483651 ≤ p := by omega
      have hp32 : u32AsI32 p = (p : Int) - 4294967296 := by
        rw [u32AsI32, if_neg (by omega)]
        norm_num [u32Size]
      set v : Int := (p : Int) - 4294967296 with hv
      have hvrange : -2147483645 ≤ v ∧ v ≤ -1 := by constructor <;> omega
      have h1 : checkedSubI32 (u32AsI32 (⟨0, p⟩ : FieldElement).prime) 2 =
          some (v - 2) := by
        show checkedSubI32 (u32AsI32 p) 2 = _
        rw [hp32, checkedSubI32, if_pos (by unfold i32Min i32Max; omega)]
      rw [h1]
      show FieldElement.pow ⟨0, p⟩ (v - 2) = _
      rw [FieldElement.pow, if_neg (by omega)]
      rw [FieldElement.negative_pow]
      have h3 : checkedSubI32 (u32AsI32 (⟨0, p⟩ : FieldElement).prime) 1 =
          some (v - 1) := by
        show checkedSubI32 (u32AsI32 p) 1 = _
        rw [hp32, checkedSubI32, if_pos (by unfold i32Min i32Max; omega)]
      have h4 : remEuclidI32 (v - 2) (v - 1) = some ((v - 2) % (v - 1)) := by
        rw [remEuclidI32, if_neg ?_]
        push_neg
        unfold i32Min
        constructor
        · omega
        · intro hc
          omega
      have h5 : (v - 2) % (v - 1) = -v := by
        have heq : v - 2 = -1 + (v - 1) * 1 := by ring
        rw [heq, Int.add_mul_emod_self_left]
        have hneg : (-1 : Int) % (v - 1) = (-1) % (-(v - 1)) := (Int.emod_neg _ _).symm
        rw [hneg]
        have hq : -(v - 1) = 1 - v := by ring
        rw [hq]
        have heq2 : (-1 : Int) = (1 - v - 1) + (1 - v) * (-1) := by ring
        rw [heq2, Int.add_mul_emod_self_left, Int.emod_eq_of_lt (by omega) (by omega)]
        ring
      simp only [h3, h4, h5, Option.bind_eq_bind, Option.some_bind]
      exact positive_pow_zero_base p hppos _ (by omega)
  rw [FieldElement.div]
  simp only [hinv, Option.bind_eq_bind, Option.some_bind]
  rw [FieldElement.mul, if_neg (by simp)]
  have h1 : checkedMulU32 a 0 = some 0 := by
    simp [checkedMulU32, u32Size]
  have h2 : remU32 0 p = some 0 := by
    simp [remU32, hppos.ne']
  simp [h1, h2]

/-- Witness for C10 at `p = 223`, `a = 5`. -/
theorem c10_div_by_zero_returns_zero_witness :
    Nat.Prime 223 ∧ (2 : Nat) < 223 ∧ (223 : Nat) < 2 ^ 32 ∧ (5 : Nat) < 223 ∧
    FieldElement.div ⟨5, 223⟩ ⟨0, 223⟩ = some ⟨0, 223⟩ :=
  ⟨by norm_num, by norm_num, by norm_num, by norm_num,
    c10_div_by_zero_returns_zero 223 5 (by norm_num) (by norm_num) (by norm_num)
      (by norm_num)⟩

theorem binExpAux_eq_fuel (G : GraphPoint α) (fuel : Nat) :
    ∀ (r c : Point α) (coef : Nat), coef ≤ fuel →
      binExpAux G r c coef = binExpAuxFuel G fuel r c coef := by
  induction fuel with
  | zero =>
    intro r c coef h
    have : coef = 0 := Nat.le_zero.mp h
    subst this
    simp [binExpAux, binExpAuxFuel]
  | succ fuel ih =>
    intro r c coef h
    match coef with
    | 0 => simp [binExpAux, binExpAuxFuel]
    | k + 1 =>
      rw [binExpAux, dif_neg (Nat.succ_ne_zero k)]
      have hrhs : binExpAuxFuel G (fuel + 1) r c (k + 1) =
          match (if (k + 1) % 2 = 1 then pointAdd G r c else Except.ok r) with
          | .error _ => none
          | .ok r' =>
            match pointAdd G c c with
            | .error _ => none
            | .ok c' => binExpAuxFuel G fuel r' c' ((k + 1) / 2) := rfl
      rw [hrhs]
      cases hstep : (if (k + 1) % 2 = 1 then pointAdd G r c else Except.ok r) with
      | error e => rfl
      | ok r' =>
        cases hdbl : pointAdd G c c with
        | error e => rfl
        | ok c' =>
          exact ih r' c' ((k + 1) / 2) (by omega)

/-- Unfolding `binary_expansion` through the fuel evaluator, for computing
concrete instances. -/
theorem binary_expansion_eq_fuel (G : GraphPoint α) (P : Point α) (n : Nat) :
    binary_expansion G P n =
      (match pointNew G .infinity .infinity P.a P.b with
       | .error _ => none
       | .ok r => binExpAuxFuel G n r P n) := by
  unfold binary_expansion
  cases pointNew G .infinity .infinity P.a P.b with
  | error e => rfl
  | ok r => exact binExpAux_eq_fuel G n r P n le_rfl

/-! ## Supporting lemmas for the point-level claims -/

/-- Constructing the identity point always succeeds: with both coordinates
infinite, the curve-equation check in `Point::new` is skipped. -/
theorem pointNew_infinity (G : GraphPoint α) (a b : Coordinate α) :
    pointNew G .infinity .infinity a b = .ok ⟨.infinity, .infinity, a, b⟩ := by
  simp [pointNew, Coordinate.isInfinity]

/-- Point addition of two points with identical curve parameters always
succeeds, and the result keeps those parameters. -/
theorem pointAdd_same_curve (G : GraphPoint α) (P Q : Point α)
    (ha : P.a = Q.a) (hb : P.b = Q.b) :
    ∃ R, pointAdd G P Q = .ok R ∧ R.a = P.a ∧ R.b = P.b := by
  have hcond : ¬(P.a ≠ Q.a ∨ P.b ≠ Q.b) := by tauto
  rw [pointAdd, if_neg hcond]
  by_cases h1 : P.x.isInfinity
  · exact ⟨Q, by simp [h1], ha.symm, hb.symm⟩
  · by_cases h2 : Q.x.isInfinity
    · exact ⟨P, by simp [h1, h2], rfl, rfl⟩
    · refine ⟨addPoint G P Q, by simp [h1, h2], ?_, ?_⟩ <;>
        · rw [addPoint]
          split
          · rfl
          · split
            · rfl
            · rfl

/-- The `binary_expansion` loop never aborts when accumulator and current
point share their curve parameters. -/
theorem binExpAux_isSome (G : GraphPoint α) :
    ∀ (coef : Nat) (r c : Point α), r.a = c.a → r.b = c.b →
      (binExpAux G r c coef).isSome = true := by
  intro coef
  induction coef using Nat.strong_induction_on with
  | _ coef ih =>
    intro r c hra hrb
    by_cases h0 : coef = 0
    · subst h0
      simp [binExpAux]
    · rw [binExpAux, dif_neg h0]
      obtain ⟨r', hr', hra', hrb'⟩ :
          ∃ r', (if coef % 2 = 1 then pointAdd G r c else .ok r) = .ok r' ∧
            r'.a = r.a ∧ r'.b = r.b := by
        by_cases hbit : coef % 2 = 1
        · obtain ⟨R, hR, hRa, hRb⟩ := pointAdd_same_curve G r c hra hrb
          exact ⟨R, by rw [if_pos hbit]; exact hR, hRa, hRb⟩
        · exact ⟨r, by rw [if_neg hbit], rfl, rfl⟩
      obtain ⟨c', hc', hca', hcb'⟩ := pointAdd_same_curve G c c rfl rfl
      rw [hr', hc']
      exact ih (coef / 2) (Nat.div_lt_self (Nat.pos_of_ne_zero h0) (by decide))
        r' c' (by rw [hra', hca', hra]) (by rw [hrb', hcb', hrb])

/-! ## Claim theorems: point layer -/

/-- C1: for the base point built by `Point::from_finite_field(47, 71, 0, 7,
223)`, scalar multiplication by the group order 21 yields the point with
both coordinates at infinity on the same curve `a = 0`, `b = 7`, and scalar
multiplication by 0 yields that same identity point. -/
theorem c1_group_order :
    fromFiniteField 47 71 0 7 223 =
      .ok ⟨.value 47, .value 71, .value 0, .value 7⟩ ∧
    scalarMul (feGP 223) 21 ⟨.value 47, .value 71, .value 0, .value 7⟩ =
      some ⟨.infinity, .infinity, .value 0, .value 7⟩ ∧
    scalarMul (feGP 223) 0 ⟨.value 47, .value 71, .value 0, .value 7⟩ =
      some ⟨.infinity, .infinity, .value 0, .value 7⟩ := by
  refine ⟨rfl, ?_, ?_⟩
  · show binary_expansion (feGP 223) _ 21 = _
    rw [binary_expansion_eq_fuel]
    rfl
  · show binary_expansion (feGP 223) _ 0 = _
    rw [binary_expansion_eq_fuel]
    rfl

/-- C7: point addition fails exactly when the curve parameters of the two
operands differ, and succeeds with a result point whenever they match. -/
theorem c7_add_error_iff_curve_mismatch (G : GraphPoint α) (P Q : Point α) :
    ((∃ e, pointAdd G P Q = .error e) ↔ (P.a ≠ Q.a ∨ P.b ≠ Q.b)) ∧
    ((P.a = Q.a ∧ P.b = Q.b) → ∃ R, pointAdd G P Q = .ok R) := by
  constructor
  · constructor
    · intro ⟨e, he⟩
      by_contra hc
      push_neg at hc
      obtain ⟨R, hR, -, -⟩ := pointAdd_same_curve G P Q hc.1 hc.2
      rw [hR] at he
      exact Except.noConfusion he
    · intro h
      exact ⟨"are not on the same curve", by rw [pointAdd, if_pos h]⟩
  · intro ⟨ha, hb⟩
    obtain ⟨R, hR, -, -⟩ := pointAdd_same_curve G P Q ha hb
    exact ⟨R, hR⟩

/-- C8: scalar multiplication by double-and-add is total — the internal
unwrapped additions never hit the curve-mismatch error (the only failure
mode of point addition), for every input point and coefficient. -/
theorem c8_scalar_mul_total (G : GraphPoint α) (P : Point α) (n : Nat) :
    (scalarMul G n P).isSome = true := by
  show (binary_expansion G P n).isSome = true
  rw [binary_expansion, pointNew_infinity]
  exact binExpAux_isSome G n ⟨.infinity, .infinity, P.a, P.b⟩ P rfl rfl

/-- C4 counterexample: `Point::new` accepts a point whose `x` is Infinity
while `y` is the finite value 3 (over ℤ/7ℤ, curve `a = 0`, `b = 2`): with
`x` infinite the right-hand side `x³ + x·a + b` evaluates to `Value(b)`
because coordinate addition treats Infinity as an identity, and `3² = 2`
in ℤ/7ℤ, so the curve check passes. -/
theorem c4_counterexample_one_infinite_coordinate :
    pointNew (feGP 7) .infinity (.value 3) (.value 0) (.value 2) =
      .ok ⟨.infinity, .value 3, .value 0, .value 2⟩ ∧
    (Coordinate.value 3 : Coordinate Nat) ≠ .infinity :=
  ⟨rfl, by decide⟩

/-- C4 amended: every point accepted by `Point::new` either has both
coordinates at infinity or satisfies the curve equation under the lifted
coordinate arithmetic (which admits points with `x` infinite and `y` a
finite square root of `b`), and a point with `y` infinite but `x` finite is
never constructed. -/
theorem c4_new_invariant_amended (G : GraphPoint α) (x y a b : Coordinate α)
    (P : Point α) (h : pointNew G x y a b = .ok P) :
    ((P.x = .infinity ∧ P.y = .infinity) ∨
      cPow G P.y 2 = cAdd G (cAdd G (cPow G P.x 3) (cMul G P.x P.a)) P.b) ∧
    (P.y = .infinity → P.x = .infinity) := by
  rw [pointNew] at h
  split at h
  · exact Except.noConfusion h
  · rename_i hcond
    obtain rfl : P = ⟨x, y, a, b⟩ := (Except.ok.injEq _ _).mp h.symm
    rw [Decidable.not_and_iff_or_not] at hcond
    rcases hcond with hinf | heq
    · rw [Bool.not_eq_false, Bool.and_eq_true] at hinf
      obtain ⟨hx, hy⟩ := hinf
      cases x with
      | value v => exact absurd hx (by simp [Coordinate.isInfinity])
      | infinity =>
        cases y with
        | value v => exact absurd hy (by simp [Coordinate.isInfinity])
        | infinity => exact ⟨.inl ⟨rfl, rfl⟩, fun _ => rfl⟩
    · rw [not_not] at heq
      refine ⟨.inr heq, fun hy => ?_⟩
      subst hy
      cases hx : x with
      | infinity => rfl
      | value v =>
        exfalso
        rw [hx] at heq
        cases a with
        | value av =>
          cases b with
          | value bv => exact Coordinate.noConfusion heq
          | infinity => exact Coordinate.noConfusion heq
        | infinity =>
          cases b with
          | value bv => exact Coordinate.noConfusion heq
          | infinity => exact Coordinate.noConfusion heq

/-- Casting a euclidean remainder by `p` back into `ZMod p`. -/
theorem intCast_toNat_emod_cast (x : Int) (p : Nat) (hp : 0 < p) :
    (((x % (p : Int)).toNat : Nat) : ZMod p) = (Int.cast x : ZMod p) := by
  have h0 : 0 ≤ x % (p : Int) := Int.emod_nonneg _ (by exact_mod_cast hp.ne')
  calc (((x % (p : Int)).toNat : Nat) : ZMod p)
      = ((((x % (p : Int)).toNat : Nat) : Int) : ZMod p) := (Int.cast_natCast _).symm
    _ = ((x % (p : Int) : Int) : ZMod p) := by rw [Int.toNat_of_nonneg h0]
    _ = (Int.cast x : ZMod p) := by rw [ZMod.intCast_mod]

theorem feAdd_lt (p a b : Nat) (hp : 0 < p) : feAdd p a b < p := Nat.mod_lt _ hp

theorem feMul_lt (p a b : Nat) (hp : 0 < p) : feMul p a b < p := Nat.mod_lt _ hp

theorem feSub_lt (p a b : Nat) (hp : 0 < p) : feSub p a b < p := Nat.mod_lt _ hp

theorem fePowNat_lt (p a : Nat) (hp : 2 ≤ p) : ∀ k, fePowNat p a k < p := by
  intro k
  cases k with
  | zero => exact hp
  | succ k => exact Nat.mod_lt _ (by omega)

theorem fePow_lt (p a : Nat) (hp : 2 ≤ p) (e : Int) : fePow p a e < p := by
  rw [fePow]
  split <;> exact fePowNat_lt p a hp _

theorem feAdd_cast (p a b : Nat) : ((feAdd p a b : Nat) : ZMod p) = a + b := by
  rw [feAdd, ZMod.natCast_mod, Nat.cast_add]

theorem feMul_cast (p a b : Nat) : ((feMul p a b : Nat) : ZMod p) = a * b := by
  rw [feMul, ZMod.natCast_mod, Nat.cast_mul]

theorem feNeg_cast (p b : Nat) (hp : 0 < p) : ((feNeg p b : Nat) : ZMod p) = -b := by
  rw [feNeg, intCast_toNat_emod_cast _ _ hp, Int.cast_neg, Int.cast_natCast]

theorem feSub_cast (p a b : Nat) (hp : 0 < p) :
    ((feSub p a b : Nat) : ZMod p) = a - b := by
  rw [feSub, feAdd_cast, feNeg_cast p b hp, sub_eq_add_neg]

theorem feMulInt_cast (p a : Nat) (k : Int) (hp : 0 < p) :
    ((feMulInt p a k : Nat) : ZMod p) = (a : ZMod p) * (Int.cast k : ZMod p) := by
  rw [feMulInt, intCast_toNat_emod_cast _ _ hp, Int.cast_mul, Int.cast_natCast]

theorem fePowNat_cast (p a : Nat) : ∀ k, ((fePowNat p a k : Nat) : ZMod p) = (a : ZMod p) ^ k := by
  intro k
  induction k with
  | zero => simp [fePowNat]
  | succ k ih =>
    rw [fePowNat, ZMod.natCast_mod, Nat.cast_mul, ih, pow_succ]

theorem fePow_pos_cast (p a : Nat) (e : Int) (he : 0 < e) :
    ((fePow p a e : Nat) : ZMod p) = (a : ZMod p) ^ e.toNat := by
  rw [fePow, if_pos he, fePowNat_cast]

theorem feInverse_cast (p b : Nat) [Fact (Nat.Prime p)] (hp2 : 2 < p) :
    ((feInverse p b : Nat) : ZMod p) = (b : ZMod p)⁻¹ := by
  rw [feInverse, fePow_pos_cast p b _ (by omega)]
  have htn : ((p : Int) - 2).toNat = p - 2 := by omega
  rw [htn]
  by_cases hb : (b : ZMod p) = 0
  · rw [hb, inv_zero]
    exact zero_pow (by omega)
  · apply eq_inv_of_mul_eq_one_left
    have hstep : (b : ZMod p) ^ (p - 2) * b = (b : ZMod p) ^ (p - 1) := by
      rw [← pow_succ]
      congr 1
      omega
    rw [hstep]
    exact ZMod.pow_card_sub_one_eq_one hb

theorem feDiv_cast (p a b : Nat) [Fact (Nat.Prime p)] (hp2 : 2 < p) :
    ((feDiv p a b : Nat) : ZMod p) = (a : ZMod p) / b := by
  rw [feDiv, feMul_cast, feInverse_cast p b hp2, div_eq_mul_inv]

theorem W223_Δ_ne_zero : W223.Δ ≠ 0 := by
  rw [WeierstrassCurve.Δ, WeierstrassCurve.b₂, WeierstrassCurve.b₄,
    WeierstrassCurve.b₆, WeierstrassCurve.b₈]
  show ¬(_ = (0 : ZMod 223))
  decide

theorem W223_negY (x y : ZMod 223) : W223.negY x y = -y := by
  rw [WeierstrassCurve.Affine.negY]
  show -y - 0 * x - 0 = -y
  ring

theorem W223_equation_iff (x y : ZMod 223) :
    W223.Equation x y ↔ y ^ 2 = x ^ 3 + 7 := by
  rw [WeierstrassCurve.Affine.equation_iff]
  show y ^ 2 + 0 * x * y + 0 * y = x ^ 3 + 0 * x ^ 2 + 0 * x + 7 ↔ _
  constructor <;> intro h <;> linear_combination h

theorem corr_total (P : Point Nat) (h : Valid223 P) : ∃ Q, Corr P Q := by
  obtain ⟨ha, hb, hfin⟩ := h
  rcases hfin with ⟨hx, hy⟩ | ⟨x, y, hx, hy, hxlt, hylt, heq⟩
  · exact ⟨0, ha, hb, .inl ⟨hx, hy, rfl⟩⟩
  · have hEq : W223.Equation (x : ZMod 223) (y : ZMod 223) := by
      rw [W223_equation_iff]
      have hcast := congrArg (fun n : Nat => (n : ZMod 223)) heq
      simp only [ZMod.natCast_mod] at hcast
      push_cast at hcast
      linear_combination hcast
    have hNs := W223.nonsingular_of_Δ_ne_zero hEq W223_Δ_ne_zero
    exact ⟨.some hNs, ha, hb, .inr ⟨x, y, hNs, hx, hy, hxlt, hylt, rfl⟩⟩

theorem corr_injective (P P' : Point Nat) (Q : W223.Point)
    (h : Corr P Q) (h' : Corr P' Q) : P = P' := by
  obtain ⟨ha, hb, hrest⟩ := h
  obtain ⟨ha', hb', hrest'⟩ := h'
  obtain ⟨Px, Py, Pa, Pb⟩ := P
  obtain ⟨Px', Py', Pa', Pb'⟩ := P'
  rcases hrest with ⟨hx, hy, hQ⟩ | ⟨x, y, hN, hx, hy, hxlt, hylt, hQ⟩ <;>
    rcases hrest' with ⟨hx', hy', hQ'⟩ | ⟨x', y', hN', hx', hy', hxlt', hylt', hQ'⟩
  · simp_all
  · subst hQ
    exact absurd hQ'.symm (WeierstrassCurve.Affine.Point.some_ne_zero hN')
  · subst hQ'
    exact absurd hQ.symm (WeierstrassCurve.Affine.Point.some_ne_zero hN)
  · rw [hQ] at hQ'
    injection hQ' with hxc hyc
    have hxx : x = x' := nat_eq_of_zmod_cast hxlt hxlt' hxc
    have hyy : y = y' := nat_eq_of_zmod_cast hylt hylt' hyc
    subst hxx
    subst hyy
    simp_all

theorem W223_a₁ : W223.a₁ = 0 := rfl

theorem W223_a₂ : W223.a₂ = 0 := rfl

theorem W223_a₄ : W223.a₄ = 0 := rfl

theorem two_ne_zero_zmod223 : (2 : ZMod 223) ≠ 0 := by decide

theorem cast_ne_of_ne {x y : Nat} (hx : x < 223) (hy : y < 223) (h : x ≠ y) :
    (x : ZMod 223) ≠ (y : ZMod 223) := fun hc => h (nat_eq_of_zmod_cast hx hy hc)

theorem corr_of_some (R : Point Nat) (xr yr : Nat) (hx : R.x = .value xr)
    (hy : R.y = .value yr) (ha : R.a = .value 0) (hb : R.b = .value 7)
    (hxlt : xr < 223) (hylt : yr < 223) (Q : W223.Point)
    {xq yq : ZMod 223} (hq : W223.Nonsingular xq yq)
    (hQ : Q = .some hq) (hxc : (xr : ZMod 223) = xq) (hyc : (yr : ZMod 223) = yq) :
    Corr R Q := by
  subst hxc
  subst hyc
  exact ⟨ha, hb, .inr ⟨xr, yr, hq, hx, hy, hxlt, hylt, hQ⟩⟩

/-- The two sloped branches of `add_point` (tangent and secant) produce the
point corresponding to the Mathlib sum, given that the computed slope
corresponds to Mathlib's slope. -/
theorem corr_sloped (x y x' y' s : Nat)
    (hxlt : x < 223) (hxlt' : x' < 223)
    (hN : W223.Nonsingular (x : ZMod 223) (y : ZMod 223))
    (hN' : W223.Nonsingular (x' : ZMod 223) (y' : ZMod 223))
    (hxy : (x : ZMod 223) = (x' : ZMod 223) →
      (y : ZMod 223) ≠ W223.negY (x' : ZMod 223) (y' : ZMod 223))
    (hscast : (s : ZMod 223) =
      W223.slope (x : ZMod 223) (x' : ZMod 223) (y : ZMod 223) (y' : ZMod 223)) :
    Corr ⟨.value (feSub 223 (feSub 223 (fePow 223 s 2) x) x'),
          .value (feSub 223 (feMul 223 s
            (feSub 223 x (feSub 223 (feSub 223 (fePow 223 s 2) x) x'))) y),
          .value 0, .value 7⟩
      (WeierstrassCurve.Affine.Point.some hN + .some hN') := by
  have hsum : WeierstrassCurve.Affine.Point.some hN + .some hN' =
      .some (WeierstrassCurve.Affine.nonsingular_add hN hN' hxy) :=
    WeierstrassCurve.Affine.Point.add_of_imp hxy
  have hxrc : ((feSub 223 (feSub 223 (fePow 223 s 2) x) x' : Nat) : ZMod 223) =
      W223.addX (x : ZMod 223) (x' : ZMod 223)
        (W223.slope (x : ZMod 223) (x' : ZMod 223) (y : ZMod 223) (y' : ZMod 223)) := by
    rw [feSub_cast _ _ _ (by norm_num), feSub_cast _ _ _ (by norm_num),
      fePow_pos_cast _ _ 2 (by norm_num), hscast, WeierstrassCurve.Affine.addX,
      W223_a₁, W223_a₂, show Int.toNat 2 = 2 from rfl]
    ring
  have hyrc : ((feSub 223 (feMul 223 s
      (feSub 223 x (feSub 223 (feSub 223 (fePow 223 s 2) x) x'))) y : Nat) : ZMod 223) =
      W223.addY (x : ZMod 223) (x' : ZMod 223) (y : ZMod 223)
        (W223.slope (x : ZMod 223) (x' : ZMod 223) (y : ZMod 223) (y' : ZMod 223)) := by
    rw [feSub_cast _ _ _ (by norm_num), feMul_cast, feSub_cast _ _ _ (by norm_num), hxrc,
      hscast, WeierstrassCurve.Affine.addY, WeierstrassCurve.Affine.negAddY, W223_negY]
    ring
  exact corr_of_some _ _ _ rfl rfl rfl rfl
    (feSub_lt _ _ _ (by norm_num)) (feSub_lt _ _ _ (by norm_num)) _
    (WeierstrassCurve.Affine.nonsingular_add hN hN' hxy) hsum hxrc hyrc

/-- Point addition of corresponding points succeeds and corresponds to the
Mathlib group addition. -/
theorem corr_add (P P' : Point Nat) (Q Q' : W223.Point)
    (hP : Corr P Q) (hP' : Corr P' Q') :
    ∃ R, pointAdd (feGP 223) P P' = .ok R ∧ Corr R (Q + Q') := by
  obtain ⟨ha, hb, hrest⟩ := hP
  obtain ⟨ha', hb', hrest'⟩ := hP'
  have hmatch : ¬(P.a ≠ P'.a ∨ P.b ≠ P'.b) := by
    rw [ha, hb, ha', hb']
    simp
  rcases hrest with ⟨hx, hy, hQ⟩ | ⟨x, y, hN, hx, hy, hxlt, hylt, hQ⟩
  · refine ⟨P', ?_, ?_⟩
    · rw [pointAdd, if_neg hmatch, if_pos (by rw [hx]; rfl)]
    · subst hQ
      rw [zero_add]
      exact ⟨ha', hb', hrest'⟩
  · rcases hrest' with ⟨hx', hy', hQ'⟩ | ⟨x', y', hN', hx', hy', hxlt', hylt', hQ'⟩
    · refine ⟨P, ?_, ?_⟩
      · rw [pointAdd, if_neg hmatch, if_neg (by rw [hx]; simp [Coordinate.isInfinity]),
          if_pos (by rw [hx']; rfl)]
      · subst hQ'
        rw [add_zero]
        exact ⟨ha, hb, .inr ⟨x, y, hN, hx, hy, hxlt, hylt, hQ⟩⟩
    · subst hQ
      subst hQ'
      obtain ⟨Px, Py, Pa, Pb⟩ := P
      obtain ⟨Px', Py', Pa', Pb'⟩ := P'
      simp only at ha hb hx hy ha' hb' hx' hy'
      subst ha hb hx hy ha' hb' hx' hy'
      have hadd : pointAdd (feGP 223)
          ⟨.value x, .value y, .value 0, .value 7⟩
          ⟨.value x', .value y', .value 0, .value 7⟩ =
          .ok (addPoint (feGP 223)
            ⟨.value x, .value y, .value 0, .value 7⟩
            ⟨.value x', .value y', .value 0, .value 7⟩) := by
        rw [pointAdd, if_neg hmatch]
        rfl
      rw [hadd]
      by_cases hxx : x = x'
      · by_cases hyy : y = y'
        · -- doubling: the two points are structurally equal
          subst hxx
          subst hyy
          by_cases hy0 : y = 0
          · -- tangent is vertical: the sum is the identity
            subst hy0
            refine ⟨_, rfl, ?_⟩
            have hzero : WeierstrassCurve.Affine.Point.some hN + .some hN' = 0 := by
              apply WeierstrassCurve.Affine.Point.add_of_Y_eq rfl
              rw [W223_negY]
              norm_num
            rw [hzero, addPoint, if_neg (by simp), if_pos (by refine ⟨rfl, ?_⟩; rfl)]
            exact ⟨rfl, rfl, .inl ⟨rfl, rfl, rfl⟩⟩
          · -- genuine doubling with the tangent slope
            refine ⟨_, rfl, ?_⟩
            have hyne : (y : ZMod 223) ≠ W223.negY (x : ZMod 223) (y : ZMod 223) := by
              rw [W223_negY]
              intro hc
              have h2y : (2 : ZMod 223) * (y : ZMod 223) = 0 := by
                linear_combination hc
              rcases mul_eq_zero.mp h2y with h | h
              · exact two_ne_zero_zmod223 h
              · exact cast_ne_of_ne hylt (by norm_num) hy0 (by simpa using h)
            have hslope : ((feDiv 223
                (feAdd 223 (feMulInt 223 (fePow 223 x 2) 3) 0)
                (feMulInt 223 y 2) : Nat) : ZMod 223) =
                W223.slope (x : ZMod 223) (x : ZMod 223) (y : ZMod 223) (y : ZMod 223) := by
              rw [WeierstrassCurve.Affine.slope_of_Y_ne rfl hyne]
              rw [feDiv_cast _ _ _ (by norm_num), feAdd_cast,
                feMulInt_cast _ _ _ (by norm_num), feMulInt_cast _ _ _ (by norm_num),
                fePow_pos_cast _ _ 2 (by norm_num), W223_negY, W223_a₁, W223_a₂, W223_a₄]
              norm_num
              ring_nf
              rfl
            have hres := corr_sloped x y x y _ hxlt hxlt hN hN' (fun _ => hyne) hslope
            have hstep : addPoint (feGP 223)
                ⟨.value x, .value y, .value 0, .value 7⟩
                ⟨.value x, .value y, .value 0, .value 7⟩ =
                ⟨.value (feSub 223 (feSub 223
                    (fePow 223 (feDiv 223 (feAdd 223 (feMulInt 223 (fePow 223 x 2) 3) 0)
                      (feMulInt 223 y 2)) 2) x) x),
                  .value (feSub 223 (feMul 223
                    (feDiv 223 (feAdd 223 (feMulInt 223 (fePow 223 x 2) 3) 0)
                      (feMulInt 223 y 2))
                    (feSub 223 x (feSub 223 (feSub 223
                      (fePow 223 (feDiv 223 (feAdd 223 (feMulInt 223 (fePow 223 x 2) 3) 0)
                        (feMulInt 223 y 2)) 2) x) x))) y),
                  .value 0, .value 7⟩ := by
              rw [addPoint, if_neg (by simp), if_neg ?_, if_pos rfl]
              · rfl
              · intro hc
                exact hy0 (by simpa [cIsZero, feGP] using hc.2)
            rw [hstep]
            exact hres
        · -- vertical pair: same x, different y — the sum is the identity
          refine ⟨_, rfl, ?_⟩
          have hyne : (y : ZMod 223) ≠ (y' : ZMod 223) :=
            cast_ne_of_ne hylt hylt' hyy
          have hcast : (x : ZMod 223) = (x' : ZMod 223) := by rw [hxx]
          have hYeq : (y : ZMod 223) = W223.negY (x' : ZMod 223) (y' : ZMod 223) :=
            (WeierstrassCurve.Affine.Y_eq_of_X_eq hN.1 hN'.1 hcast).resolve_left hyne
          have hzero : WeierstrassCurve.Affine.Point.some hN + .some hN' = 0 :=
            WeierstrassCurve.Affine.Point.add_of_Y_eq hcast hYeq
          rw [hzero, addPoint, if_pos ⟨by rw [hxx], by simp [hyy]⟩]
          exact ⟨rfl, rfl, .inl ⟨rfl, rfl, rfl⟩⟩
      · -- secant case: distinct x coordinates
        refine ⟨_, rfl, ?_⟩
        have hxne : (x : ZMod 223) ≠ (x' : ZMod 223) := cast_ne_of_ne hxlt hxlt' hxx
        have hslope : ((feDiv 223 (feSub 223 y' y) (feSub 223 x' x) : Nat) : ZMod 223) =
            W223.slope (x : ZMod 223) (x' : ZMod 223) (y : ZMod 223) (y' : ZMod 223) := by
          rw [WeierstrassCurve.Affine.slope_of_X_ne hxne]
          rw [feDiv_cast _ _ _ (by norm_num), feSub_cast _ _ _ (by norm_num),
            feSub_cast _ _ _ (by norm_num)]
          rw [← neg_sub (y : ZMod 223) (y' : ZMod 223),
            ← neg_sub (x : ZMod 223) (x' : ZMod 223), neg_div_neg_eq]
        have hres := corr_sloped x y x' y' _ hxlt hxlt' hN hN'
          (fun hc => absurd hc hxne) hslope
        have hstep : addPoint (feGP 223)
            ⟨.value x, .value y, .value 0, .value 7⟩
            ⟨.value x', .value y', .value 0, .value 7⟩ =
            ⟨.value (feSub 223 (feSub 223
                (fePow 223 (feDiv 223 (feSub 223 y' y) (feSub 223 x' x)) 2) x) x'),
              .value (feSub 223 (feMul 223
                (feDiv 223 (feSub 223 y' y) (feSub 223 x' x))
                (feSub 223 x (feSub 223 (feSub 223
                  (fePow 223 (feDiv 223 (feSub 223 y' y) (feSub 223 x' x)) 2) x) x'))) y),
              .value 0, .value 7⟩ := by
          have hne : ¬(Point.mk (α := Nat) (.value x) (.value y) (.value 0) (.value 7) =
              ⟨.value x', .value y', .value 0, .value 7⟩) := by
            intro hc
            simp only [Point.mk.injEq, Coordinate.value.injEq] at hc
            exact hxx hc.1
          rw [addPoint, if_neg ?_, if_neg ?_, if_neg hne]
          · rfl
          · exact fun hc => hne hc.1
          · intro hc
            exact hxx (by simpa using hc.1)
        rw [hstep]
        exact hres

/-- The identity point of the embedded code corresponds to the group
zero. -/
theorem corr_identity : Corr ⟨.infinity, .infinity, .value 0, .value 7⟩ 0 :=
  ⟨rfl, rfl, .inl ⟨rfl, rfl, rfl⟩⟩

/-- The repeated-addition loop tracks the group multiple. -/
theorem corr_naiveAux (P : Point Nat) (Qp : W223.Point) (hP : Corr P Qp) :
    ∀ (n : Nat) (acc : Point Nat) (Qa : W223.Point), Corr acc Qa →
      ∃ R, naiveAux (feGP 223) acc P n = some R ∧ Corr R (Qa + n • Qp) := by
  intro n
  induction n with
  | zero =>
    intro acc Qa hacc
    exact ⟨acc, rfl, by rw [zero_nsmul, add_zero]; exact hacc⟩
  | succ n ih =>
    intro acc Qa hacc
    obtain ⟨acc', hstep, hacc'⟩ := corr_add acc P Qa Qp hacc hP
    obtain ⟨R, hR, hcR⟩ := ih acc' (Qa + Qp) hacc'
    refine ⟨R, ?_, ?_⟩
    · rw [naiveAux, hstep]
      exact hR
    · have harith : Qa + Qp + n • Qp = Qa + (n + 1) • Qp := by
        rw [succ_nsmul]
        abel
      rwa [harith] at hcR

/-- The double-and-add loop tracks the group multiple. -/
theorem corr_binExpAux :
    ∀ (n : Nat) (r c : Point Nat) (Qr Qc : W223.Point), Corr r Qr → Corr c Qc →
      ∃ R, binExpAux (feGP 223) r c n = some R ∧ Corr R (Qr + n • Qc) := by
  intro n
  induction n using Nat.strong_induction_on with
  | _ n ih =>
    intro r c Qr Qc hr hc
    by_cases h0 : n = 0
    · subst h0
      refine ⟨r, by rw [binExpAux]; rfl, by rw [zero_nsmul, add_zero]; exact hr⟩
    · obtain ⟨r', hr', hcr'⟩ :
          ∃ r', (if n % 2 = 1 then pointAdd (feGP 223) r c else .ok r) = .ok r' ∧
            Corr r' (Qr + (n % 2) • Qc) := by
        by_cases hbit : n % 2 = 1
        · obtain ⟨R, hR, hcR⟩ := corr_add r c Qr Qc hr hc
          exact ⟨R, by rw [if_pos hbit]; exact hR, by rwa [hbit, one_nsmul]⟩
        · refine ⟨r, by rw [if_neg hbit], ?_⟩
          have hz : n % 2 = 0 := by omega
          rw [hz, zero_nsmul, add_zero]
          exact hr
      obtain ⟨c', hc', hcc'⟩ := corr_add c c Qc Qc hc hc
      obtain ⟨R, hR, hcR⟩ := ih (n / 2) (Nat.div_lt_self (Nat.pos_of_ne_zero h0) (by decide))
        r' c' (Qr + (n % 2) • Qc) (Qc + Qc) hcr' hcc'
      refine ⟨R, ?_, ?_⟩
      · rw [binExpAux, dif_neg h0, hr', hc']
        exact hR
      · have harith : Qr + (n % 2) • Qc + (n / 2) • (Qc + Qc) = Qr + n • Qc := by
          have hn : n = 2 * (n / 2) + n % 2 := (Nat.div_add_mod' n 2).symm ▸ by omega
          calc Qr + (n % 2) • Qc + (n / 2) • (Qc + Qc)
              = Qr + (n % 2) • Qc + (n / 2) • (2 • Qc) := by rw [two_nsmul]
            _ = Qr + (n % 2) • Qc + ((n / 2) * 2) • Qc := by rw [mul_nsmul']
            _ = Qr + ((n % 2) + (n / 2) * 2) • Qc := by rw [add_nsmul]; abel
            _ = Qr + n • Qc := by rw [show (n % 2) + (n / 2) * 2 = n by omega]
        rwa [harith] at hcR

/-- Double-and-add computes the group multiple of a corresponding point. -/
theorem corr_binary_expansion (P : Point Nat) (Q : W223.Point) (h : Corr P Q)
    (n : Nat) :
    ∃ R, binary_expansion (feGP 223) P n = some R ∧ Corr R (n • Q) := by
  obtain ⟨R, hR, hcR⟩ := corr_binExpAux n ⟨.infinity, .infinity, .value 0, .value 7⟩ P
    0 Q corr_identity h
  refine ⟨R, ?_, by rwa [zero_add] at hcR⟩
  rw [binary_expansion, h.1, h.2.1, pointNew_infinity]
  exact hR

/-- Repeated addition computes the group multiple of a corresponding
point. -/
theorem corr_naiveMul (P : Point Nat) (Q : W223.Point) (h : Corr P Q) (n : Nat) :
    ∃ R, naiveMul (feGP 223) P n = some R ∧ Corr R (n • Q) := by
  obtain ⟨R, hR, hcR⟩ := corr_naiveAux P Q h n ⟨.infinity, .infinity, .value 0, .value 7⟩
    0 corr_identity
  refine ⟨R, ?_, by rwa [zero_add] at hcR⟩
  rw [naiveMul, h.1, h.2.1, pointNew_infinity]
  exact hR

/-- C2 counterexample: over the `RealValue` (binary32) instantiation, the
curve-valid point (−1, −1) on the curve `a = 5`, `b = 7` — accepted by
`Point::new` — gives different results for `3 · P` by double-and-add and by
three repeated additions: the x coordinates agree but the y coordinates
differ (−10496463·2^(−22) against −10496448·2^(−22)), because the two
evaluation orders round different intermediate expressions. -/
theorem c2_counterexample_float_rounding :
    pointNew realGP (.value (f32OfInt (-1))) (.value (f32OfInt (-1)))
        (.value (f32OfInt 5)) (.value (f32OfInt 7)) =
      .ok ⟨.value ⟨-8388608, -23⟩, .value ⟨-8388608, -23⟩,
        .value ⟨10485760, -21⟩, .value ⟨14680064, -21⟩⟩ ∧
    binary_expansion realGP
        ⟨.value ⟨-8388608, -23⟩, .value ⟨-8388608, -23⟩,
          .value ⟨10485760, -21⟩, .value ⟨14680064, -21⟩⟩ 3 =
      some ⟨.value ⟨-9852544, -26⟩, .value ⟨-10496463, -22⟩,
        .value ⟨10485760, -21⟩, .value ⟨14680064, -21⟩⟩ ∧
    naiveMul realGP
        ⟨.value ⟨-8388608, -23⟩, .value ⟨-8388608, -23⟩,
          .value ⟨10485760, -21⟩, .value ⟨14680064, -21⟩⟩ 3 =
      some ⟨.value ⟨-9852544, -26⟩, .value ⟨-10496448, -22⟩,
        .value ⟨10485760, -21⟩, .value ⟨14680064, -21⟩⟩ ∧
    binary_expansion realGP
        ⟨.value ⟨-8388608, -23⟩, .value ⟨-8388608, -23⟩,
          .value ⟨10485760, -21⟩, .value ⟨14680064, -21⟩⟩ 3 ≠
      naiveMul realGP
        ⟨.value ⟨-8388608, -23⟩, .value ⟨-8388608, -23⟩,
          .value ⟨10485760, -21⟩, .value ⟨14680064, -21⟩⟩ 3 := by
  have hbin : binary_expansion realGP
      ⟨.value ⟨-8388608, -23⟩, .value ⟨-8388608, -23⟩,
        .value ⟨10485760, -21⟩, .value ⟨14680064, -21⟩⟩ 3 =
      some ⟨.value ⟨-9852544, -26⟩, .value ⟨-10496463, -22⟩,
        .value ⟨10485760, -21⟩, .value ⟨14680064, -21⟩⟩ := by
    rw [binary_expansion_eq_fuel]
    decide
  have hnaive : naiveMul realGP
      ⟨.value ⟨-8388608, -23⟩, .value ⟨-8388608, -23⟩,
        .value ⟨10485760, -21⟩, .value ⟨14680064, -21⟩⟩ 3 =
      some ⟨.value ⟨-9852544, -26⟩, .value ⟨-10496448, -22⟩,
        .value ⟨10485760, -21⟩, .value ⟨14680064, -21⟩⟩ := by decide
  refine ⟨rfl, hbin, hnaive, ?_⟩
  rw [hbin, hnaive]
  decide

/-- C2 amended: over the exact finite prime field instantiation — the test
curve `y² = x³ + 7` over ℤ/223ℤ — for every curve-valid point and every
non-negative coefficient, the double-and-add binary expansion agrees with
the repeated-addition reference (adding the point to the identity `n`
times via the group-law addition).  (Over the approximate binary32
instantiation the equivalence fails — see the C2 counterexample.) -/
theorem c2_double_and_add_eq_repeated_addition (P : Point Nat)
    (h : Valid223 P) (n : Nat) :
    scalarMul (feGP 223) n P = naiveMul (feGP 223) P n := by
  obtain ⟨Q, hQ⟩ := corr_total P h
  obtain ⟨R, hR, hcR⟩ := corr_binary_expansion P Q hQ n
  obtain ⟨R', hR', hcR'⟩ := corr_naiveMul P Q hQ n
  show binary_expansion (feGP 223) P n = _
  rw [hR, hR', corr_injective R R' (n • Q) hcR hcR']

/-- Witness for C2 at the base point `(47, 71)` with coefficient 5. -/
theorem c2_double_and_add_eq_repeated_addition_witness :
    Valid223 ⟨.value 47, .value 71, .value 0, .value 7⟩ ∧
    scalarMul (feGP 223) 5 ⟨.value 47, .value 71, .value 0, .value 7⟩ =
      naiveMul (feGP 223) ⟨.value 47, .value 71, .value 0, .value 7⟩ 5 := by
  have hvalid : Valid223 ⟨.value 47, .value 71, .value 0, .value 7⟩ :=
    ⟨rfl, rfl, .inr ⟨47, 71, rfl, rfl, by norm_num, by norm_num, by norm_num⟩⟩
  exact ⟨hvalid, c2_double_and_add_eq_repeated_addition _ hvalid 5⟩

/-- Witness for the amended C4 invariant at the concrete base point of the
223-curve. -/
theorem c4_new_invariant_amended_witness :
    ((Coordinate.value 47 = (.infinity : Coordinate Nat) ∧
        Coordinate.value 71 = (.infinity : Coordinate Nat)) ∨
      cPow (feGP 223) (.value 71) 2 =
        cAdd (feGP 223) (cAdd (feGP 223) (cPow (feGP 223) (.value 47) 3)
          (cMul (feGP 223) (.value 47) (.value 0))) (.value 7)) ∧
    ((Coordinate.value 71 : Coordinate Nat) = .infinity →
      (Coordinate.value 47 : Coordinate Nat) = .infinity) := by
  have h := c4_new_invariant_amended (feGP 223) (.value 47) (.value 71)
    (.value 0) (.value 7) ⟨.value 47, .value 71, .value 0, .value 7⟩ rfl
  exact h

end Spec2Proof
